import Mathlib

/-!
Verification of the mitmproxy-rs core against its specification.

The Rust sources are shallowly embedded: strings are lists of characters
(`Str`), byte buffers are lists of naturals, `HashMap` state is modelled by
association lists or functions, and fallible operations return `Option` or
`Except`.  Machine integers (`usize`, `u64`) are naturals with explicit
bounds where the source can overflow.
-/

set_option maxHeartbeats 1000000

/-- Rust `String` / `&str` contents, embedded as a list of characters. -/
abbrev Str := List Char

/-- Index of the first occurrence of character `c` (Rust `str::find(char)`;
byte and character indices agree at ASCII search targets because slicing
always happens at the boundary of the found ASCII character). -/
def findChar (c : Char) : Str → Option Nat
  | [] => none
  | x :: xs => if x = c then some 0 else (findChar c xs).map (· + 1)

/-- Rust `str::starts_with` on explicit character lists. -/
def listStartsWith : Str → Str → Bool
  | [], _ => true
  | _ :: _, [] => false
  | p :: ps, s :: ss => p = s && listStartsWith ps ss

/-- Rust `str::contains(&str)`: some contiguous run of `s` equals `pat`. -/
def containsSeq (pat : Str) : Str → Bool
  | [] => pat.isEmpty
  | c :: rest => listStartsWith pat (c :: rest) || containsSeq pat rest

/-- Numeric value of a decimal digit string (no sign handling). -/
def digitsVal (s : Str) : Nat :=
  s.foldl (fun n c => n * 10 + (c.toNat - '0'.toNat)) 0

/-- Rust `str::parse::<u64>()`: optional leading `+`, at least one ASCII
digit, nothing else, and the value must fit in 64 bits. -/
def parse_u64 (s : Str) : Option Nat :=
  let t := match s with
    | '+' :: r => r
    | _ => s
  if t ≠ [] ∧ t.all Char.isDigit then
    if digitsVal t < 18446744073709551616 then some (digitsVal t) else none
  else none

/-- One step of `std::str::from_utf8` validation: decode the first UTF-8
scalar of the slice, returning it together with the unconsumed remainder.
Overlong encodings, surrogates, values above `U+10FFFF`, stray continuation
bytes and truncated sequences are rejected, exactly as in the Rust standard
library. -/
def decodeOne : List Nat → Option (Char × List Nat)
  | [] => none
  | b :: bs =>
    if b < 128 then
      some (Char.ofNat b, bs)
    else if b < 194 then
      none
    else if b < 224 then
      match bs with
      | b1 :: bs1 =>
        if 128 ≤ b1 ∧ b1 < 192 then
          some (Char.ofNat ((b - 192) * 64 + (b1 - 128)), bs1)
        else none
      | [] => none
    else if b < 240 then
      match bs with
      | b1 :: b2 :: bs2 =>
        if (if b = 224 then 160 else 128) ≤ b1 ∧ b1 < (if b = 237 then 160 else 192) ∧
            128 ≤ b2 ∧ b2 < 192 then
          some (Char.ofNat ((b - 224) * 4096 + (b1 - 128) * 64 + (b2 - 128)), bs2)
        else none
      | _ => none
    else if b < 245 then
      match bs with
      | b1 :: b2 :: b3 :: bs3 =>
        if (if b = 240 then 144 else 128) ≤ b1 ∧ b1 < (if b = 244 then 144 else 192) ∧
            128 ≤ b2 ∧ b2 < 192 ∧ 128 ≤ b3 ∧ b3 < 192 then
          some (Char.ofNat
            ((b - 240) * 262144 + (b1 - 128) * 4096 + (b2 - 128) * 64 + (b3 - 128)), bs3)
        else none
      | _ => none
    else none

/-- The `std::str::from_utf8` validation loop, decoding one scalar at a time,
with explicit fuel (each step consumes at least one byte, so fuel equal to
the slice length always suffices). -/
def utf8DecodeF : Nat → List Nat → Option (List Char)
  | _, [] => some []
  | 0, _ :: _ => none
  | fuel + 1, b :: bs =>
    match decodeOne (b :: bs) with
    | none => none
    | some (c, r) => (utf8DecodeF fuel r).map (fun s => c :: s)

/-- `std::str::from_utf8`: strict UTF-8 validation of a whole byte slice,
returning the decoded character sequence. -/
def utf8Decode (l : List Nat) : Option (List Char) :=
  utf8DecodeF l.length l

/-! ## SSE parser (src/sse.rs) -/

/-- A parsed SSE event (src/sse.rs `SseEvent`). -/
structure SseEvent where
  event_type : Str
  data : Str
  id : Option Str
  retry : Option Nat
deriving DecidableEq, Repr

/-- Parser state for the event currently being built (src/sse.rs
`EventBuilder`). -/
structure EventBuilder where
  event_type : Option Str
  data_lines : List Str
  id : Option Str
  retry : Option Nat
deriving DecidableEq, Repr

def EventBuilder.new : EventBuilder :=
  { event_type := none, data_lines := [], id := none, retry := none }

instance : Inhabited EventBuilder := ⟨EventBuilder.new⟩

def EventBuilder.is_empty (b : EventBuilder) : Bool :=
  b.event_type.isNone && b.data_lines.isEmpty && b.id.isNone && b.retry.isNone

/-- `EventBuilder::build`: an event exists only if at least one `data` line
was collected; data lines are joined with `\n`, the event type defaults to
`"message"`. -/
def EventBuilder.build (b : EventBuilder) : Option SseEvent :=
  if b.data_lines.isEmpty then none
  else some
    { event_type := b.event_type.getD "message".toList
      data := List.intercalate ['\n'] b.data_lines
      id := b.id
      retry := b.retry }

/-- Incremental SSE stream parser state (src/sse.rs `SseParser`). -/
structure SseParser where
  line_buffer : Str
  current_event : EventBuilder
  last_event_id : Option Str
deriving DecidableEq, Repr

def SseParser.new : SseParser :=
  { line_buffer := [], current_event := EventBuilder.new, last_event_id := none }

/-- `SseParser::find_line_end`: position of the first complete line's end in
the buffer; for `\r\n` the position of the `\r` is reported. -/
def find_line_end (buf : Str) : Option Nat :=
  (findChar '\n' buf).map fun i =>
    if 0 < i ∧ buf[i - 1]? = some '\r' then i - 1 else i

/-- Strip at most one leading space (`value.strip_prefix(' ').unwrap_or(..)`
in `process_line`). -/
def stripOneSpace : Str → Str
  | ' ' :: r => r
  | v => v

/-- The part of `SseParser::process_line` that reads and writes only the
current event builder and the last event id (the line buffer is never touched
by `process_line` in the source). -/
def process_line_core (cur : EventBuilder) (last : Option Str) (line : Str) :
    EventBuilder × Option Str × Option SseEvent :=
  if line = [] then
    if ¬ cur.is_empty then
      match cur.build with
      | some evt =>
        (EventBuilder.new, if evt.id.isSome then evt.id else last, some evt)
      | none => (EventBuilder.new, last, none)
    else (cur, last, none)
  else if listStartsWith [':'] line then
    (cur, last, none)
  else
    let fv : Str × Str :=
      match findChar ':' line with
      | some cp => (line.take cp, stripOneSpace (line.drop (cp + 1)))
      | none => (line, [])
    let field := fv.1
    let value := fv.2
    if field = "event".toList then
      ({ cur with event_type := some value }, last, none)
    else if field = "data".toList then
      ({ cur with data_lines := cur.data_lines ++ [value] }, last, none)
    else if field = "id".toList then
      if value.contains '\x00' then (cur, last, none)
      else ({ cur with id := some value }, last, none)
    else if field = "retry".toList then
      match parse_u64 value with
      | some n => ({ cur with retry := some n }, last, none)
      | none => (cur, last, none)
    else (cur, last, none)

/-- `SseParser::process_line` on the full parser state. -/
def process_line (st : SseParser) (line : Str) : SseParser × Option SseEvent :=
  let r := process_line_core st.current_event st.last_event_id line
  ({ st with current_event := r.1, last_event_id := r.2.1 }, r.2.2)

/-- Number of line-terminator characters to skip at line end `i`
(`parse_str`: 2 for `\r\n`, 1 for a bare `\n`). -/
def skipAt (buf : Str) (i : Nat) : Nat :=
  if listStartsWith ['\r', '\n'] (buf.drop i) then 2 else 1

/-- Buffer contents left after removing the first line and its terminator
(`parse_str`: `self.line_buffer = self.line_buffer[line_end + skip..]`). -/
def restAt (buf : Str) (i : Nat) : Str :=
  buf.drop (i + skipAt buf i)

/-- The line-draining loop of `SseParser::parse_str`, with explicit fuel
(the loop consumes at least one buffered character per iteration, so fuel
equal to the buffer length always suffices). -/
def drainF : Nat → SseParser → SseParser × List SseEvent
  | 0, st => (st, [])
  | fuel + 1, st =>
    match find_line_end st.line_buffer with
    | none => (st, [])
    | some i =>
      let r1 := process_line { st with line_buffer := restAt st.line_buffer i }
        (st.line_buffer.take i)
      let r2 := drainF fuel r1.1
      (r2.1, r1.2.toList ++ r2.2)

/-- Drain all complete lines from the buffer (the `while let` loop of
`parse_str`). -/
def drain (st : SseParser) : SseParser × List SseEvent :=
  drainF st.line_buffer.length st

/-- `SseParser::parse_str`: append the chunk to the line buffer, then process
every complete line. -/
def parse_str (st : SseParser) (chunk : Str) : SseParser × List SseEvent :=
  drain { st with line_buffer := st.line_buffer ++ chunk }

/-- `SseParser::parse_chunk`: decode the bytes as UTF-8; an invalid chunk is
skipped wholesale. -/
def parse_chunk (st : SseParser) (chunk : List Nat) : SseParser × List SseEvent :=
  match utf8Decode chunk with
  | none => (st, [])
  | some s => parse_str st s

/-- `SseParser::flush`: process any remaining buffered bytes as a final line,
then build and return the pending event, resetting the builder. -/
def flush (st : SseParser) : SseParser × Option SseEvent :=
  let st1 := if st.line_buffer = [] then st
    else (process_line { st with line_buffer := [] } st.line_buffer).1
  ({ st1 with current_event := EventBuilder.new }, st1.current_event.build)

/-- Feed a sequence of byte chunks through `parse_chunk`, concatenating the
returned events. -/
def feed_all (st : SseParser) : List (List Nat) → SseParser × List SseEvent
  | [] => (st, [])
  | c :: cs =>
    let r1 := parse_chunk st c
    let r2 := feed_all r1.1 cs
    (r2.1, r1.2 ++ r2.2)

/-- Incremental parse of a partitioned stream: feed every chunk, then flush
at end of stream. -/
def parse_incremental (chunks : List (List Nat)) : List SseEvent :=
  let r := feed_all SseParser.new chunks
  r.2 ++ (flush r.1).2.toList

/-- Parse a whole stream delivered as one single chunk, then flush. -/
def parse_sse (s : List Nat) : List SseEvent :=
  let r := parse_chunk SseParser.new s
  r.2 ++ (flush r.1).2.toList

/-! ## Chunk-boundary independence of the SSE parser -/

theorem findChar_append_some {c : Char} {a : Str} {i : Nat} (b : Str)
    (h : findChar c a = some i) : findChar c (a ++ b) = some i := by
  induction a generalizing i with
  | nil => simp [findChar] at h
  | cons x xs ih =>
    rw [List.cons_append]
    simp only [findChar] at h ⊢
    by_cases hx : x = c
    · rw [if_pos hx] at h ⊢
      exact h
    · rw [if_neg hx] at h ⊢
      cases hf : findChar c xs with
      | none => rw [hf] at h; simp at h
      | some j =>
        rw [hf] at h
        rw [ih hf]
        exact h

theorem findChar_getElem {c : Char} {l : Str} {i : Nat}
    (h : findChar c l = some i) : l[i]? = some c := by
  induction l generalizing i with
  | nil => simp [findChar] at h
  | cons x xs ih =>
    by_cases hx : x = c
    · simp [findChar, hx] at h
      subst h
      simp [hx]
    · simp only [findChar, if_neg hx] at h
      cases hf : findChar c xs with
      | none => rw [hf] at h; simp at h
      | some j =>
        rw [hf] at h
        simp only [Option.map_some', Option.some.injEq] at h
        subst h
        simpa using ih hf

theorem getElem?_some_lt {l : Str} {i : Nat} {c : Char} (h : l[i]? = some c) :
    i < l.length := by
  by_contra hge
  rw [List.getElem?_eq_none (by omega)] at h
  exact Option.noConfusion h

theorem drop_cons_of_getElem? {l : Str} {i : Nat} {c : Char} (h : l[i]? = some c) :
    l.drop i = c :: l.drop (i + 1) := by
  have hlt : i < l.length := getElem?_some_lt h
  have hc : l[i] = c := by
    have := List.getElem?_eq_getElem hlt
    rw [this] at h
    exact Option.some.inj h
  rw [List.drop_eq_getElem_cons hlt, hc]

/-- Characterisation of a found line end: either a bare `\n` sits at the
reported position, or a `\r\n` pair does. -/
theorem find_line_end_char {buf : Str} {i : Nat} (h : find_line_end buf = some i) :
    buf[i]? = some '\n' ∨ (buf[i]? = some '\r' ∧ buf[i + 1]? = some '\n') := by
  unfold find_line_end at h
  cases hf : findChar '\n' buf with
  | none => rw [hf] at h; simp at h
  | some j =>
    rw [hf] at h
    simp only [Option.map_some'] at h
    have hj := findChar_getElem hf
    by_cases hc : 0 < j ∧ buf[j - 1]? = some '\r'
    · rw [if_pos hc] at h
      injection h with h
      subst h
      right
      refine ⟨hc.2, ?_⟩
      have : j - 1 + 1 = j := by omega
      rw [this]
      exact hj
    · rw [if_neg hc] at h
      injection h with h
      subst h
      exact Or.inl hj

theorem find_line_end_lt {buf : Str} {i : Nat} (h : find_line_end buf = some i) :
    i < buf.length := by
  rcases find_line_end_char h with hn | ⟨hr, _⟩
  · exact getElem?_some_lt hn
  · exact getElem?_some_lt hr

/-- Appending bytes to the buffer does not change the first line end. -/
theorem find_line_end_append {buf : Str} {i : Nat} (v : Str)
    (h : find_line_end buf = some i) : find_line_end (buf ++ v) = some i := by
  unfold find_line_end at h ⊢
  cases hf : findChar '\n' buf with
  | none => rw [hf] at h; simp at h
  | some j =>
    rw [hf] at h
    simp only [Option.map_some'] at h
    have hjl : j < buf.length := getElem?_some_lt (findChar_getElem hf)
    rw [findChar_append_some v hf]
    simp only [Option.map_some']
    have hco : (buf ++ v)[j - 1]? = buf[j - 1]? :=
      List.getElem?_append_left (by omega)
    rw [hco]
    exact h

/-- Appending bytes to the buffer changes neither the extracted line, nor the
terminator width, nor (except for carrying the new bytes) the remainder; the
consumed piece lies entirely inside the original buffer. -/
theorem step_append {buf : Str} {i : Nat} (v : Str)
    (h : find_line_end buf = some i) :
    (buf ++ v).take i = buf.take i ∧
    skipAt (buf ++ v) i = skipAt buf i ∧
    i + skipAt buf i ≤ buf.length ∧
    restAt (buf ++ v) i = restAt buf i ++ v := by
  have hlt : i < buf.length := find_line_end_lt h
  have htake : (buf ++ v).take i = buf.take i :=
    List.take_append_of_le_length (by omega)
  have hskip : skipAt (buf ++ v) i = skipAt buf i ∧ i + skipAt buf i ≤ buf.length := by
    rcases find_line_end_char h with hn | ⟨hr, hn⟩
    · have h1 : buf.drop i = '\n' :: buf.drop (i + 1) := drop_cons_of_getElem? hn
      have h2 : (buf ++ v).drop i = '\n' :: (buf ++ v).drop (i + 1) :=
        drop_cons_of_getElem? (by rw [List.getElem?_append_left hlt]; exact hn)
      have hne : (('\r' : Char) = '\n') = False := by simp
      constructor
      · unfold skipAt
        rw [h1, h2]
        simp [listStartsWith, hne]
      · unfold skipAt
        rw [h1]
        simp [listStartsWith, hne]
        omega
    · have hlt1 : i + 1 < buf.length := getElem?_some_lt hn
      have h1 : buf.drop i = '\r' :: '\n' :: buf.drop (i + 2) := by
        rw [drop_cons_of_getElem? hr, drop_cons_of_getElem? hn]
      have h2 : (buf ++ v).drop i = '\r' :: '\n' :: (buf ++ v).drop (i + 2) := by
        rw [drop_cons_of_getElem? (by rw [List.getElem?_append_left hlt]; exact hr),
          drop_cons_of_getElem? (by rw [List.getElem?_append_left hlt1]; exact hn)]
      constructor
      · unfold skipAt
        rw [h1, h2]
        simp [listStartsWith]
      · unfold skipAt
        rw [h1]
        simp [listStartsWith]
        omega
  refine ⟨htake, hskip.1, hskip.2, ?_⟩
  unfold restAt
  rw [hskip.1, List.drop_append_of_le_length hskip.2]

theorem process_line_buffer (st : SseParser) (l : Str) :
    (process_line st l).1.line_buffer = st.line_buffer := rfl

theorem process_line_set_buffer (st : SseParser) (x l : Str) :
    process_line { st with line_buffer := x } l =
      ({ (process_line st l).1 with line_buffer := x }, (process_line st l).2) := rfl

/-- Any fuel at least the buffer length gives the drain loop the same result. -/
theorem drainF_ext : ∀ (f1 f2 : Nat) (st : SseParser),
    st.line_buffer.length ≤ f1 → st.line_buffer.length ≤ f2 →
    drainF f1 st = drainF f2 st := by
  intro f1
  induction f1 with
  | zero =>
    intro f2 st h1 _
    have hb : st.line_buffer = [] := List.length_eq_zero.mp (by omega)
    cases f2 with
    | zero => rfl
    | succ n => simp [drainF, find_line_end, hb, findChar]
  | succ f1' ih =>
    intro f2 st h1 h2
    cases f2 with
    | zero =>
      have hb : st.line_buffer = [] := List.length_eq_zero.mp (by omega)
      simp [drainF, find_line_end, hb, findChar]
    | succ f2' =>
      cases hf : find_line_end st.line_buffer with
      | none => simp [drainF, hf]
      | some i =>
        have hlt : i < st.line_buffer.length := find_line_end_lt hf
        have hskip : 1 ≤ skipAt st.line_buffer i := by
          unfold skipAt; split <;> omega
        have hrest :
            (process_line { st with line_buffer := restAt st.line_buffer i }
              (st.line_buffer.take i)).1.line_buffer.length ≤ f1' := by
          rw [process_line_buffer]
          simp only [restAt, List.length_drop]
          omega
        have hrest2 :
            (process_line { st with line_buffer := restAt st.line_buffer i }
              (st.line_buffer.take i)).1.line_buffer.length ≤ f2' := by
          rw [process_line_buffer]
          simp only [restAt, List.length_drop]
          omega
        simp only [drainF, hf]
        rw [ih f2' _ hrest hrest2]

theorem drain_none {st : SseParser} (h : find_line_end st.line_buffer = none) :
    drain st = (st, []) := by
  unfold drain
  cases hl : st.line_buffer.length with
  | zero => rfl
  | succ n => simp [drainF, h]

/-- The single successor state of one drain step. -/
def stepState (st : SseParser) (i : Nat) : SseParser :=
  (process_line { st with line_buffer := restAt st.line_buffer i }
    (st.line_buffer.take i)).1

/-- The events emitted by one drain step. -/
def stepEvents (st : SseParser) (i : Nat) : List SseEvent :=
  (process_line { st with line_buffer := restAt st.line_buffer i }
    (st.line_buffer.take i)).2.toList

theorem stepState_buffer (st : SseParser) (i : Nat) :
    (stepState st i).line_buffer = restAt st.line_buffer i := rfl

theorem drain_some {st : SseParser} {i : Nat}
    (h : find_line_end st.line_buffer = some i) :
    drain st = ((drain (stepState st i)).1,
      stepEvents st i ++ (drain (stepState st i)).2) := by
  have hlt : i < st.line_buffer.length := find_line_end_lt h
  unfold drain stepState stepEvents
  cases hl : st.line_buffer.length with
  | zero => omega
  | succ n =>
    have hskip : 1 ≤ skipAt st.line_buffer i := by
      unfold skipAt; split <;> omega
    have hb : (process_line { st with line_buffer := restAt st.line_buffer i }
        (st.line_buffer.take i)).1.line_buffer.length ≤ n := by
      rw [process_line_buffer]
      simp only [restAt, List.length_drop]
      omega
    simp only [drainF, h]
    rw [drainF_ext n ((process_line { st with line_buffer := restAt st.line_buffer i }
      (st.line_buffer.take i)).1.line_buffer.length) _ hb le_rfl]

theorem stepState_append {st : SseParser} {i : Nat} (v : Str)
    (h : find_line_end st.line_buffer = some i) :
    stepState { st with line_buffer := st.line_buffer ++ v } i =
      { stepState st i with line_buffer := restAt st.line_buffer i ++ v } ∧
    stepEvents { st with line_buffer := st.line_buffer ++ v } i = stepEvents st i := by
  obtain ⟨htake, hskip, hle, hrest⟩ := step_append v h
  unfold stepState stepEvents
  simp only
  rw [htake, hrest, process_line_set_buffer { st with line_buffer := restAt st.line_buffer i }]
  exact ⟨rfl, rfl⟩

/-- Draining the buffer with extra bytes appended produces first the events
of draining without them, then the events of draining the leftover plus the
extra bytes from the resulting state. -/
theorem drain_append : ∀ (n : Nat) (st : SseParser), st.line_buffer.length ≤ n →
    ∀ v : Str,
    drain { st with line_buffer := st.line_buffer ++ v } =
      ((drain { (drain st).1 with
          line_buffer := (drain st).1.line_buffer ++ v }).1,
        (drain st).2 ++ (drain { (drain st).1 with
          line_buffer := (drain st).1.line_buffer ++ v }).2) := by
  intro n
  induction n with
  | zero =>
    intro st h1 v
    have hb : st.line_buffer = [] := List.length_eq_zero.mp (by omega)
    have hn : find_line_end st.line_buffer = none := by
      rw [hb]; rfl
    rw [drain_none hn]
    simp
  | succ n ih =>
    intro st h1 v
    cases hf : find_line_end st.line_buffer with
    | none =>
      rw [drain_none hf]
      simp
    | some i =>
      have hlt : i < st.line_buffer.length := find_line_end_lt hf
      obtain ⟨hA, hB⟩ := stepState_append v hf
      have hfv : find_line_end ({ st with line_buffer := st.line_buffer ++ v} :
          SseParser).line_buffer = some i := find_line_end_append v hf
      rw [drain_some hfv, drain_some hf]
      rw [hA, hB]
      have hbl : (stepState st i).line_buffer.length ≤ n := by
        obtain ⟨_, _, hle, _⟩ := step_append v hf
        have hskip : 1 ≤ skipAt st.line_buffer i := by
          unfold skipAt; split <;> omega
        rw [stepState_buffer]
        simp only [restAt, List.length_drop]
        omega
      have hsb : restAt st.line_buffer i = (stepState st i).line_buffer :=
        (stepState_buffer st i).symm
      rw [hsb]
      rw [ih (stepState st i) hbl v]
      simp [List.append_assoc]

/-- `parse_str` composes over chunk concatenation. -/
theorem parse_str_append (st : SseParser) (a b : Str) :
    parse_str st (a ++ b) =
      ((parse_str (parse_str st a).1 b).1,
        (parse_str st a).2 ++ (parse_str (parse_str st a).1 b).2) := by
  unfold parse_str
  have h1 : ({ st with line_buffer := st.line_buffer ++ (a ++ b) } : SseParser) =
      { ({ st with line_buffer := st.line_buffer ++ a } : SseParser) with
        line_buffer :=
          ({ st with line_buffer := st.line_buffer ++ a } : SseParser).line_buffer ++ b } := by
    simp [List.append_assoc]
  rw [h1]
  exact drain_append ({ st with line_buffer := st.line_buffer ++ a } :
    SseParser).line_buffer.length _ le_rfl b

/-- A successful `decodeOne` consumes at least one byte, and is unaffected by
bytes beyond the consumed scalar. -/
theorem decodeOne_facts : ∀ {a : List Nat} {c : Char} {r : List Nat},
    decodeOne a = some (c, r) →
    r.length < a.length ∧ ∀ b, decodeOne (a ++ b) = some (c, r ++ b) := by
  intro a c r h
  match a with
  | [] => simp [decodeOne] at h
  | b0 :: rest =>
    by_cases h0 : b0 < 128
    · simp only [decodeOne, if_pos h0, Option.some.injEq, Prod.mk.injEq] at h
      obtain ⟨hc, hr⟩ := h
      subst hc; subst hr
      refine ⟨by simp, fun b => ?_⟩
      simp [decodeOne, if_pos h0]
    · by_cases h1 : b0 < 194
      · simp [decodeOne, if_neg h0, if_pos h1] at h
      · by_cases h2 : b0 < 224
        · match rest with
          | [] => simp [decodeOne, if_neg h0, if_neg h1, if_pos h2] at h
          | c1 :: rest1 =>
            by_cases hc1 : 128 ≤ c1 ∧ c1 < 192
            · simp only [decodeOne, if_neg h0, if_neg h1, if_pos h2, if_pos hc1,
                Option.some.injEq, Prod.mk.injEq] at h
              obtain ⟨hc, hr⟩ := h
              subst hc; subst hr
              refine ⟨by simp; omega, fun b => ?_⟩
              simp [decodeOne, if_neg h0, if_neg h1, if_pos h2, if_pos hc1]
            · simp [decodeOne, if_neg h0, if_neg h1, if_pos h2, if_neg hc1] at h
        · by_cases h3 : b0 < 240
          · match rest with
            | [] => simp [decodeOne, if_neg h0, if_neg h1, if_neg h2, if_pos h3] at h
            | [c1] => simp [decodeOne, if_neg h0, if_neg h1, if_neg h2, if_pos h3] at h
            | c1 :: c2 :: rest2 =>
              by_cases hc1 : (if b0 = 224 then 160 else 128) ≤ c1 ∧
                  c1 < (if b0 = 237 then 160 else 192) ∧ 128 ≤ c2 ∧ c2 < 192
              · simp only [decodeOne, if_neg h0, if_neg h1, if_neg h2, if_pos h3,
                  if_pos hc1, Option.some.injEq, Prod.mk.injEq] at h
                obtain ⟨hc, hr⟩ := h
                subst hc; subst hr
                refine ⟨by simp; omega, fun b => ?_⟩
                simp [decodeOne, if_neg h0, if_neg h1, if_neg h2, if_pos h3, if_pos hc1]
              · simp [decodeOne, if_neg h0, if_neg h1, if_neg h2, if_pos h3,
                  if_neg hc1] at h
          · by_cases h4 : b0 < 245
            · match rest with
              | [] =>
                simp [decodeOne, if_neg h0, if_neg h1, if_neg h2, if_neg h3, if_pos h4] at h
              | [c1] =>
                simp [decodeOne, if_neg h0, if_neg h1, if_neg h2, if_neg h3, if_pos h4] at h
              | [c1, c2] =>
                simp [decodeOne, if_neg h0, if_neg h1, if_neg h2, if_neg h3, if_pos h4] at h
              | c1 :: c2 :: c3 :: rest3 =>
                by_cases hc1 : (if b0 = 240 then 144 else 128) ≤ c1 ∧
                    c1 < (if b0 = 244 then 144 else 192) ∧
                    128 ≤ c2 ∧ c2 < 192 ∧ 128 ≤ c3 ∧ c3 < 192
                · simp only [decodeOne, if_neg h0, if_neg h1, if_neg h2, if_neg h3,
                    if_pos h4, if_pos hc1, Option.some.injEq, Prod.mk.injEq] at h
                  obtain ⟨hc, hr⟩ := h
                  subst hc; subst hr
                  refine ⟨by simp; omega, fun b => ?_⟩
                  simp [decodeOne, if_neg h0, if_neg h1, if_neg h2, if_neg h3,
                    if_pos h4, if_pos hc1]
                · simp [decodeOne, if_neg h0, if_neg h1, if_neg h2, if_neg h3,
                    if_pos h4, if_neg hc1] at h
            · simp [decodeOne, if_neg h0, if_neg h1, if_neg h2, if_neg h3, if_neg h4] at h

/-- Any fuel at least the slice length gives the UTF-8 loop the same result. -/
theorem utf8DecodeF_ext : ∀ (f1 f2 : Nat) (l : List Nat),
    l.length ≤ f1 → l.length ≤ f2 → utf8DecodeF f1 l = utf8DecodeF f2 l := by
  intro f1
  induction f1 with
  | zero =>
    intro f2 l h1 _
    have hb : l = [] := List.length_eq_zero.mp (by omega)
    subst hb
    cases f2 <;> rfl
  | succ f ih =>
    intro f2 l h1 h2
    cases l with
    | nil => cases f2 <;> rfl
    | cons x xs =>
      cases f2 with
      | zero => simp at h2
      | succ f2' =>
        cases hd : decodeOne (x :: xs) with
        | none => simp [utf8DecodeF, hd]
        | some p =>
          obtain ⟨c, r⟩ := p
          have hlt : r.length < (x :: xs).length := (decodeOne_facts hd).1
          simp only [List.length_cons] at hlt h1 h2
          simp only [utf8DecodeF, hd]
          rw [ih f2' r (by omega) (by omega)]

/-- UTF-8 decoding of a valid prefix commutes with concatenation: UTF-8 is a
character-at-a-time prefix code. -/
theorem utf8Decode_append : ∀ (n : Nat) (a : List Nat) (s : List Char),
    a.length ≤ n → utf8Decode a = some s →
    ∀ b, utf8Decode (a ++ b) = (utf8Decode b).map (fun t => s ++ t) := by
  intro n
  induction n with
  | zero =>
    intro a s h1 hs b
    have hb : a = [] := List.length_eq_zero.mp (by omega)
    subst hb
    simp only [utf8Decode, utf8DecodeF, Option.some.injEq] at hs
    subst hs
    simp only [List.nil_append]
    cases utf8Decode b <;> simp
  | succ n ih =>
    intro a s h1 hs b
    cases a with
    | nil =>
      simp only [utf8Decode, utf8DecodeF, Option.some.injEq] at hs
      subst hs
      simp only [List.nil_append]
      cases utf8Decode b <;> simp
    | cons x xs =>
      simp only [utf8Decode, List.length_cons, utf8DecodeF] at hs
      cases hd : decodeOne (x :: xs) with
      | none => rw [hd] at hs; simp at hs
      | some p =>
        obtain ⟨c, r⟩ := p
        rw [hd] at hs
        simp only [Option.map_eq_some'] at hs
        obtain ⟨s', hr, hcons⟩ := hs
        subst hcons
        obtain ⟨hlen, happ⟩ := decodeOne_facts hd
        simp only [List.length_cons] at hlen h1
        have hr' : utf8Decode r = some s' := by
          unfold utf8Decode
          rw [utf8DecodeF_ext r.length xs.length r le_rfl (by omega)]
          exact hr
        have hIH := ih r s' (by omega) hr' b
        rw [List.cons_append]
        show utf8DecodeF (x :: (xs ++ b)).length (x :: (xs ++ b)) = _
        have happ' : decodeOne (x :: (xs ++ b)) = some (c, r ++ b) := by
          have h0 := happ b
          rwa [List.cons_append] at h0
        simp only [List.length_cons, utf8DecodeF, happ']
        have hre : utf8DecodeF (xs ++ b).length (r ++ b) = utf8Decode (r ++ b) := by
          unfold utf8Decode
          apply utf8DecodeF_ext
          · simp only [List.length_append]
            omega
          · exact le_rfl
        rw [hre, hIH]
        cases utf8Decode b <;> simp

/-- After draining, no complete line remains buffered. -/
theorem drainF_no_line : ∀ (f : Nat) (st : SseParser), st.line_buffer.length ≤ f →
    find_line_end (drainF f st).1.line_buffer = none := by
  intro f
  induction f with
  | zero =>
    intro st h1
    have hb : st.line_buffer = [] := List.length_eq_zero.mp (by omega)
    simp only [drainF]
    rw [hb]
    rfl
  | succ f ih =>
    intro st h1
    cases hf : find_line_end st.line_buffer with
    | none => simp only [drainF, hf]
    | some i =>
      have hlt : i < st.line_buffer.length := find_line_end_lt hf
      have hskip : 1 ≤ skipAt st.line_buffer i := by
        unfold skipAt; split <;> omega
      simp only [drainF, hf]
      apply ih
      rw [process_line_buffer]
      simp only [restAt, List.length_drop]
      omega

theorem drain_no_line (st : SseParser) :
    find_line_end (drain st).1.line_buffer = none :=
  drainF_no_line st.line_buffer.length st le_rfl

theorem parse_str_no_line (st : SseParser) (chunk : Str) :
    find_line_end (parse_str st chunk).1.line_buffer = none :=
  drain_no_line _

/-- On a parser state with no buffered complete line, an empty chunk is a
no-op. -/
theorem parse_str_nil {st : SseParser}
    (h : find_line_end st.line_buffer = none) : parse_str st [] = (st, []) := by
  unfold parse_str
  rw [List.append_nil]
  have : ({ st with line_buffer := st.line_buffer } : SseParser) = st := rfl
  rw [this]
  exact drain_none h

/-- Concatenated decodes of a chunk list (defaulting each already-validated
chunk). -/
def decodeAll : List (List Nat) → Str
  | [] => []
  | c :: cs => (utf8Decode c).getD [] ++ decodeAll cs

theorem utf8Decode_flatten {chunks : List (List Nat)}
    (h : ∀ c ∈ chunks, (utf8Decode c).isSome) :
    utf8Decode chunks.flatten = some (decodeAll chunks) := by
  induction chunks with
  | nil => rfl
  | cons c cs ih =>
    obtain ⟨s, hs⟩ := Option.isSome_iff_exists.mp (h c (List.mem_cons_self c cs))
    have hcs := ih (fun x hx => h x (List.mem_cons_of_mem c hx))
    rw [List.flatten_cons]
    rw [utf8Decode_append c.length c s le_rfl hs cs.flatten, hcs]
    simp [decodeAll, hs]

/-- Feeding validly-partitioned chunks one by one equals feeding their decoded
concatenation, provided the start state holds no complete buffered line. -/
theorem feed_all_valid : ∀ (chunks : List (List Nat)) (st : SseParser),
    find_line_end st.line_buffer = none →
    (∀ c ∈ chunks, (utf8Decode c).isSome) →
    feed_all st chunks = parse_str st (decodeAll chunks) := by
  intro chunks
  induction chunks with
  | nil =>
    intro st hst _
    rw [show decodeAll [] = [] from rfl, parse_str_nil hst]
    rfl
  | cons c cs ih =>
    intro st hst h
    obtain ⟨s, hs⟩ := Option.isSome_iff_exists.mp (h c (List.mem_cons_self c cs))
    have hcs : ∀ x ∈ cs, (utf8Decode x).isSome :=
      fun x hx => h x (List.mem_cons_of_mem c hx)
    show (let r1 := parse_chunk st c
      let r2 := feed_all r1.1 cs
      (r2.1, r1.2 ++ r2.2)) = parse_str st (decodeAll (c :: cs))
    have hpc : parse_chunk st c = parse_str st s := by
      unfold parse_chunk
      rw [hs]
    simp only [hpc]
    rw [ih (parse_str st s).1 (parse_str_no_line st s) hcs]
    have hdec : decodeAll (c :: cs) = s ++ decodeAll cs := by
      simp only [decodeAll, hs, Option.getD_some]
    rw [hdec, parse_str_append]

/-- Bytes of an ASCII string literal. -/
def strBytes (s : String) : List Nat := s.toList.map Char.toNat

/-- C1 (counterexample): the claim fails as stated, because `parse_chunk`
UTF-8-validates each chunk in isolation.  Splitting the stream
`"data: \xC3\xA9\n\n"` in the middle of the two-byte character `é` makes
both chunks invalid UTF-8, so both are silently dropped and no event is
produced, while single-chunk parsing yields the `é` event. -/
theorem sse_chunk_split_utf8_cex :
    ¬ (parse_incremental [[100, 97, 116, 97, 58, 32, 195], [169, 10, 10]] =
      parse_sse (List.flatten [[100, 97, 116, 97, 58, 32, 195], [169, 10, 10]])) := by
  decide

/-- C1 (amended): for every SSE byte stream and every partition of it into
chunks each of which is valid UTF-8 on its own, feeding the chunks one by one
to `parse_chunk` and concatenating the returned events, followed by `flush`
at stream end, yields exactly the event sequence of parsing the whole stream
as a single chunk followed by `flush`. -/
theorem sse_chunk_boundary_independent (chunks : List (List Nat))
    (h : ∀ c ∈ chunks, (utf8Decode c).isSome) :
    parse_incremental chunks = parse_sse chunks.flatten := by
  have h0 : find_line_end SseParser.new.line_buffer = none := rfl
  have h1 := feed_all_valid chunks SseParser.new h0 h
  have h2 : parse_chunk SseParser.new chunks.flatten =
      parse_str SseParser.new (decodeAll chunks) := by
    unfold parse_chunk
    rw [utf8Decode_flatten h]
  unfold parse_incremental parse_sse
  rw [h1, h2]

/-- C1 (witness): the spec's scenario S5, `data: first\n\ndata: second\n\n`
split after bytes 5, 14 and 22. -/
theorem sse_chunk_boundary_independent_witness :
    (∀ c ∈ [strBytes "data:", strBytes " first\n\nd", strBytes "ata: sec",
      strBytes "ond\n\n"], (utf8Decode c).isSome) ∧
    parse_incremental [strBytes "data:", strBytes " first\n\nd", strBytes "ata: sec",
      strBytes "ond\n\n"] =
      parse_sse (List.flatten [strBytes "data:", strBytes " first\n\nd",
        strBytes "ata: sec", strBytes "ond\n\n"]) :=
  ⟨by decide, sse_chunk_boundary_independent _ (by decide)⟩

/-- C9: a chunk that is not valid UTF-8 yields no events and leaves the
parser state (line buffer, pending event, last event id) unchanged. -/
theorem parse_chunk_invalid_utf8_noop (st : SseParser) (chunk : List Nat)
    (h : utf8Decode chunk = none) : parse_chunk st chunk = (st, []) := by
  unfold parse_chunk
  rw [h]

/-- C9 (witness): a parser holding the buffered partial line `data: x`
receives the invalid byte `0xC3`; nothing changes, even though a later
newline would have completed the buffered line. -/
theorem parse_chunk_invalid_utf8_noop_witness :
    utf8Decode [195] = none ∧
    parse_chunk (parse_str SseParser.new (String.toList "data: x")).1 [195] =
      ((parse_str SseParser.new (String.toList "data: x")).1, []) :=
  ⟨by decide, parse_chunk_invalid_utf8_noop _ [195] (by decide)⟩

/-! ## SHA-256 (the `sha2` crate as used by `set_content`, FIPS 180-4) -/

/-- Truncate to a 32-bit word. -/
def w32 (n : Nat) : Nat := n % 4294967296

/-- Right rotation of a 32-bit word. -/
def rotr32 (n x : Nat) : Nat := (x >>> n) + w32 ((x % (2 ^ n)) <<< (32 - n))

def shaCh (x y z : Nat) : Nat := (x &&& y) ^^^ ((x ^^^ 4294967295) &&& z)

def shaMaj (x y z : Nat) : Nat := (x &&& y) ^^^ (x &&& z) ^^^ (y &&& z)

def bigSigma0 (x : Nat) : Nat := rotr32 2 x ^^^ rotr32 13 x ^^^ rotr32 22 x

def bigSigma1 (x : Nat) : Nat := rotr32 6 x ^^^ rotr32 11 x ^^^ rotr32 25 x

def smallSigma0 (x : Nat) : Nat := rotr32 7 x ^^^ rotr32 18 x ^^^ (x >>> 3)

def smallSigma1 (x : Nat) : Nat := rotr32 17 x ^^^ rotr32 19 x ^^^ (x >>> 10)

def sha256K : List Nat :=
  [1116352408, 1899447441, 3049323471, 3921009573,
   961987163, 1508970993, 2453635748, 2870763221,
   3624381080, 310598401, 607225278, 1426881987,
   1925078388, 2162078206, 2614888103, 3248222580,
   3835390401, 4022224774, 264347078, 604807628,
   770255983, 1249150122, 1555081692, 1996064986,
   2554220882, 2821834349, 2952996808, 3210313671,
   3336571891, 3584528711, 113926993, 338241895,
   666307205, 773529912, 1294757372, 1396182291,
   1695183700, 1986661051, 2177026350, 2456956037,
   2730485921, 2820302411, 3259730800, 3345764771,
   3516065817, 3600352804, 4094571909, 275423344,
   430227734, 506948616, 659060556, 883997877,
   958139571, 1322822218, 1537002063, 1747873779,
   1955562222, 2024104815, 2227730452, 2361852424,
   2428436474, 2756734187, 3204031479, 3329325298]

def sha256H0 : List Nat :=
  [1779033703, 3144134277, 1013904242, 2773480762,
   1359893119, 2600822924, 528734635, 1541459225]

/-- Extend the sixteen block words to the sixty-four-entry message schedule. -/
def msgSchedule (block : List Nat) : List Nat :=
  (List.range 48).foldl
    (fun w _ =>
      w ++ [w32 (smallSigma1 (w.getD (w.length - 2) 0) + w.getD (w.length - 7) 0 +
        smallSigma0 (w.getD (w.length - 15) 0) + w.getD (w.length - 16) 0)])
    block

/-- One compression round on the eight-word working state. -/
def sha256Round (s : List Nat) (k wt : Nat) : List Nat :=
  match s with
  | [a, b, c, d, e, f, g, h] =>
    let t1 := w32 (h + bigSigma1 e + shaCh e f g + k + wt)
    let t2 := w32 (bigSigma0 a + shaMaj a b c)
    [w32 (t1 + t2), a, b, c, w32 (d + t1), e, f, g]
  | _ => s

/-- Compress one 64-byte block into the hash state. -/
def sha256Compress (h : List Nat) (block : List Nat) : List Nat :=
  let ws := msgSchedule block
  let s := (List.zip sha256K ws).foldl (fun s kw => sha256Round s kw.1 kw.2) h
  List.zipWith (fun x y => w32 (x + y)) h s

/-- Big-endian byte serialisation of a value into `n` bytes. -/
def toBytesBE (n : Nat) (v : Nat) : List Nat :=
  (List.range n).map (fun i => (v >>> (8 * (n - 1 - i))) % 256)

/-- FIPS 180-4 padding: a `0x80` byte, zeros to 56 mod 64, then the 64-bit
big-endian message bit length. -/
def padMsg (msg : List Nat) : List Nat :=
  msg ++ [128] ++ List.replicate ((64 + 55 - msg.length % 64) % 64) 0 ++
    toBytesBE 8 (msg.length * 8)

/-- Group bytes into big-endian 32-bit words. -/
def toWords : List Nat → List Nat
  | b0 :: b1 :: b2 :: b3 :: rest =>
    (b0 * 16777216 + b1 * 65536 + b2 * 256 + b3) :: toWords rest
  | _ => []

/-- Fold the compression function over the 16-word blocks. -/
def processBlocks : List Nat → List Nat → List Nat
  | h, [] => h
  | h, w :: ws => processBlocks (sha256Compress h ((w :: ws).take 16)) ((w :: ws).drop 16)
termination_by _ ws => ws.length
decreasing_by simp; omega

/-- The SHA-256 digest of a byte sequence, as 32 bytes. -/
def sha256Bytes (msg : List Nat) : List Nat :=
  (processBlocks sha256H0 (toWords (padMsg msg))).foldr
    (fun wrd acc => toBytesBE 4 wrd ++ acc) []

def hexDigit (n : Nat) : Char :=
  if n < 10 then Char.ofNat (48 + n) else Char.ofNat (87 + n)

/-- Lowercase hexadecimal rendering of a digest
(Rust `format!("{:x}", hasher.finalize())`). -/
def sha256Hex (msg : List Nat) : Str :=
  (sha256Bytes msg).foldr (fun b acc => hexDigit (b / 16) :: hexDigit (b % 16) :: acc) []

/-! ## Flow model (src/flow.rs) -/

namespace Mitm

inductive FlowType
  | http
  | tcp
  | udp
  | dns
deriving DecidableEq, Repr

structure Certificate where
  keyinfo : Str
  sha256 : Str
  notbefore : Int
  notafter : Int
  serial : Str
  subject : List (Str × Str)
  issuer : List (Str × Str)
  altnames : List Str
deriving DecidableEq, Repr

structure Connection where
  id : Str
  peername : Option (Str × Nat)
  sockname : Option (Str × Nat)
  address : Option (Str × Nat)
  tls_established : Bool
  cert : Option Certificate
  sni : Option Str
  cipher : Option Str
  alpn : Option Str
  tls_version : Option Str
  timestamp_start : Option Int
  timestamp_tcp_setup : Option Int
  timestamp_tls_setup : Option Int
  timestamp_end : Option Int
deriving DecidableEq, Repr

structure FlowError where
  msg : Str
  timestamp : Int
deriving DecidableEq, Repr

inductive WebSocketMessageType
  | text
  | binary
  | ping
  | pong
  | close
deriving DecidableEq, Repr

structure WebSocketMessage where
  content : List Nat
  from_client : Bool
  timestamp : Int
  message_type : WebSocketMessageType
deriving DecidableEq, Repr

structure WebSocketMessagesMeta where
  content_length : Nat
  count : Nat
  timestamp_last : Option Int
deriving DecidableEq, Repr

structure WebSocketFlow where
  messages_meta : WebSocketMessagesMeta
  closed_by_client : Option Bool
  close_code : Option Nat
  close_reason : Option Str
  timestamp_end : Option Int
  messages : List WebSocketMessage
deriving DecidableEq, Repr

structure Flow where
  id : Str
  flow_type : FlowType
  intercepted : Bool
  is_replay : Bool
  modified : Bool
  marked : Str
  comment : Str
  timestamp_created : Int
  client_conn : Option Connection
  server_conn : Option Connection
  error : Option FlowError
deriving DecidableEq, Repr

/-- `Flow::new`.  The fresh UUID and the current clock reading are inputs
from the environment (`Uuid::new_v4()`, `chrono::Utc::now()`), passed
explicitly here. -/
def Flow.new (id : Str) (now : Int) (flow_type : FlowType) : Flow :=
  { id := id
    flow_type := flow_type
    intercepted := false
    is_replay := false
    modified := false
    marked := []
    comment := []
    timestamp_created := now
    client_conn := none
    server_conn := none
    error := none }

def Flow.is_modified (f : Flow) : Bool := f.modified

/-- `Flow::set_error`; the clock reading for the error timestamp is passed
explicitly. -/
def Flow.set_error (f : Flow) (now : Int) (msg : Str) : Flow :=
  { f with error := some { msg := msg, timestamp := now } }

def Flow.resume (f : Flow) : Flow := { f with intercepted := false }

/-- `Flow::kill`: delegates to `set_error` with the fixed message. -/
def Flow.kill (f : Flow) (now : Int) : Flow :=
  f.set_error now "Connection killed.".toList

def Flow.killable (f : Flow) : Bool := !f.is_replay && f.error.isNone

structure HTTPRequest where
  method : Str
  scheme : Str
  host : Str
  port : Nat
  path : Str
  http_version : Str
  headers : List (Str × Str)
  content : Option (List Nat)
  content_length : Option Nat
  content_hash : Option Str
  timestamp_start : Option Int
  timestamp_end : Option Int
  pretty_host : Str
deriving DecidableEq, Repr

structure HTTPResponse where
  http_version : Str
  status_code : Nat
  reason : Str
  headers : List (Str × Str)
  content : Option (List Nat)
  content_length : Option Nat
  content_hash : Option Str
  timestamp_start : Option Int
  timestamp_end : Option Int
  trailers : Option (List (Str × Str))
deriving DecidableEq, Repr

/-- `HTTPRequest::new`: the pretty host suppresses the scheme's default
port. -/
def HTTPRequest.new (method scheme host : Str) (port : Nat) (path : Str) :
    HTTPRequest :=
  let pretty_host :=
    if (port = 80 ∧ scheme = "http".toList) ∨ (port = 443 ∧ scheme = "https".toList)
    then host
    else host ++ [':'] ++ Nat.toDigits 10 port
  { method := method
    scheme := scheme
    host := host
    port := port
    path := path
    http_version := "HTTP/1.1".toList
    headers := []
    content := none
    content_length := none
    content_hash := none
    timestamp_start := none
    timestamp_end := none
    pretty_host := pretty_host }

/-- `HTTPRequest::url`: `{scheme}://{pretty_host}{path}`. -/
def HTTPRequest.url (r : HTTPRequest) : Str :=
  r.scheme ++ "://".toList ++ r.pretty_host ++ r.path

/-- `HTTPRequest::set_content`: length always tracks the new body; the hash
is recomputed only for a non-empty body (the source guards the hashing with
`if !content.is_empty()`). -/
def HTTPRequest.set_content (r : HTTPRequest) (content : List Nat) : HTTPRequest :=
  { r with
    content_length := some content.length
    content_hash := if content ≠ [] then some (sha256Hex content) else r.content_hash
    content := some content }

/-- ASCII lowercase of one character (Rust `char::to_ascii_lowercase`). -/
def asciiLower (c : Char) : Char :=
  if 'A' ≤ c ∧ c ≤ 'Z' then Char.ofNat (c.toNat + 32) else c

/-- Rust `str::eq_ignore_ascii_case`. -/
def eqIgnoreAsciiCase (a b : Str) : Bool := a.map asciiLower = b.map asciiLower

/-- `HTTPRequest::get_header`: first case-insensitive match. -/
def HTTPRequest.get_header (r : HTTPRequest) (name : Str) : Option Str :=
  (r.headers.find? (fun p => eqIgnoreAsciiCase p.1 name)).map (·.2)

/-- `HTTPRequest::set_header`: drop all case-insensitive matches, then
append. -/
def HTTPRequest.set_header (r : HTTPRequest) (name value : Str) : HTTPRequest :=
  { r with headers :=
      (r.headers.filter (fun p => ¬ eqIgnoreAsciiCase p.1 name)) ++ [(name, value)] }

def HTTPResponse.new (status_code : Nat) (reason : Str) : HTTPResponse :=
  { http_version := "HTTP/1.1".toList
    status_code := status_code
    reason := reason
    headers := []
    content := none
    content_length := none
    content_hash := none
    timestamp_start := none
    timestamp_end := none
    trailers := none }

/-- `HTTPResponse::set_content`: identical to the request version. -/
def HTTPResponse.set_content (p : HTTPResponse) (content : List Nat) : HTTPResponse :=
  { p with
    content_length := some content.length
    content_hash := if content ≠ [] then some (sha256Hex content) else p.content_hash
    content := some content }

def HTTPResponse.get_header (p : HTTPResponse) (name : Str) : Option Str :=
  (p.headers.find? (fun q => eqIgnoreAsciiCase q.1 name)).map (·.2)

structure HTTPFlow where
  flow : Flow
  request : HTTPRequest
  response : Option HTTPResponse
  websocket : Option WebSocketFlow
deriving DecidableEq, Repr

/-- `HTTPFlow::new` (UUID and clock passed explicitly, as in `Flow.new`). -/
def HTTPFlow.new (request : HTTPRequest) (id : Str) (now : Int) : HTTPFlow :=
  { flow := Flow.new id now FlowType.http
    request := request
    response := none
    websocket := none }

def HTTPFlow.with_response (f : HTTPFlow) (response : HTTPResponse) : HTTPFlow :=
  { f with response := some response }

/-- `HTTPFlow::backup`: the source stores no snapshot; it only sets the
`modified` flag (its comment says a real implementation would create a
backup for revert). -/
def HTTPFlow.backup (f : HTTPFlow) : HTTPFlow :=
  { f with flow := { f.flow with modified := true } }

/-- `HTTPFlow::revert`: the source restores nothing; it only clears the
`modified` flag. -/
def HTTPFlow.revert (f : HTTPFlow) : HTTPFlow :=
  { f with flow := { f.flow with modified := false } }

/-- `HTTPFlow::copy`: clone with a fresh id (passed explicitly) and the
replay flag set. -/
def HTTPFlow.copy (f : HTTPFlow) (new_id : Str) : HTTPFlow :=
  { f with flow := { f.flow with id := new_id, is_replay := true } }

end Mitm

open Mitm

/-- A concrete request used in witnesses and counterexamples. -/
def c2Req : HTTPRequest :=
  HTTPRequest.new "POST".toList "https".toList "example.com".toList 443 "/".toList

/-- A concrete response used in witnesses. -/
def c2Resp : HTTPResponse := HTTPResponse.new 200 "OK".toList

/-- C2 (counterexample): after `set_content(b"")` on a fresh request the
content hash is `None`, not the SHA-256 of the empty byte string — the
source skips hashing for an empty body. -/
theorem set_content_empty_hash_cex :
    ¬ ((c2Req.set_content []).content_hash = some (sha256Hex [])) := by
  intro hc
  rw [show (c2Req.set_content []).content_hash = none from rfl] at hc
  exact Option.noConfusion hc

/-- C2 (amended): `set_content(B)` on a request or response updates the
body, its length and its hash in the same operation: the length always
becomes `|B|` and the body `B`; for non-empty `B` the hash becomes the
lowercase hex SHA-256 of `B`; for empty `B` the hash field is left at its
previous value. -/
theorem set_content_spec (r : HTTPRequest) (p : HTTPResponse) (B : List Nat) :
    ((r.set_content B).content_length = some B.length ∧
      (r.set_content B).content = some B ∧
      (B ≠ [] → (r.set_content B).content_hash = some (sha256Hex B)) ∧
      (B = [] → (r.set_content B).content_hash = r.content_hash)) ∧
    ((p.set_content B).content_length = some B.length ∧
      (p.set_content B).content = some B ∧
      (B ≠ [] → (p.set_content B).content_hash = some (sha256Hex B)) ∧
      (B = [] → (p.set_content B).content_hash = p.content_hash)) := by
  constructor <;> refine ⟨rfl, rfl, fun h => ?_, fun h => ?_⟩ <;>
    simp [HTTPRequest.set_content, HTTPResponse.set_content, h]

/-- C2 (witness): setting the body `b"abc"` on concrete messages. -/
theorem set_content_spec_witness :
    (([97, 98, 99] : List Nat) ≠ []) ∧
    (c2Req.set_content [97, 98, 99]).content_hash = some (sha256Hex [97, 98, 99]) ∧
    (c2Req.set_content [97, 98, 99]).content_length = some 3 :=
  ⟨by decide,
    (set_content_spec c2Req c2Resp [97, 98, 99]).1.2.2.1 (by decide),
    (set_content_spec c2Req c2Resp [97, 98, 99]).1.1⟩

/-- A concrete HTTP flow used for the backup/revert evaluation. -/
def c3_flow : HTTPFlow :=
  HTTPFlow.new
    (HTTPRequest.new "GET".toList "https".toList "example.com".toList 443 "/api".toList)
    "flow-1".toList 0

/-- C3 (divergence evaluation): after `backup()`, editing the request method
and calling `revert()` leaves the edited method in place — the source's
`backup` stores no snapshot (it only sets `modified`) and `revert` restores
nothing (it only clears `modified`).  Only the idempotence half of the claim
holds. -/
theorem backup_revert_does_not_restore :
    ({ c3_flow.backup with
        request := { c3_flow.backup.request with method := "POST".toList } } :
      HTTPFlow).revert.request.method = "POST".toList ∧
    c3_flow.request.method = "GET".toList ∧
    c3_flow.backup.backup = c3_flow.backup :=
  ⟨rfl, rfl, rfl⟩

/-- A concrete intercepted flow for the kill evaluation. -/
def c5_flow : Mitm.Flow :=
  { Mitm.Flow.new "flow-5".toList 0 FlowType.http with intercepted := true }

/-- C5 (counterexample): on an intercepted flow, `kill` sets the error but
does not clear `intercepted` — the claimed conjunction fails. -/
theorem kill_clears_intercepted_cex :
    ¬ (((c5_flow.kill 0).error.isSome = true) ∧
      ((c5_flow.kill 0).intercepted = false)) := by
  decide

/-- C5 (amended): for every flow, `kill` sets the flow's error (so the error
becomes non-empty) and leaves the `intercepted` flag unchanged — the source's
`kill` only delegates to `set_error`. -/
theorem kill_sets_error_keeps_intercepted (f : Mitm.Flow) (now : Int) :
    (f.kill now).error.isSome = true ∧ (f.kill now).intercepted = f.intercepted :=
  ⟨rfl, rfl⟩

/-! ## HTTP/1 client response body sizing (src/proxy/layers/http.rs) -/

/-- Rust `str::to_uppercase` / `str::to_lowercase`, restricted to the ASCII
range (sufficient and exact for the ASCII token comparisons the source
performs). -/
def to_uppercase (s : Str) : Str := s.map Char.toUpper

def to_lowercase (s : Str) : Str := s.map Char.toLower

/-- `HashMap::get` on a header map (keys already lowercased at parse time,
unique per `HashMap` semantics). -/
def headerGet (headers : List (Str × Str)) (k : Str) : Option Str :=
  (headers.find? (fun p => p.1 == k)).map (·.2)

/-- The request head shape `parse_request_head` builds: method, lowercased
header map, version (plus fields irrelevant to sizing). -/
structure H1RequestHead where
  method : Str
  url : Str
  version : Str
  headers : List (Str × Str)
  content : List Nat
deriving DecidableEq, Repr

/-- The response head shape `parse_response_head` builds. -/
structure H1ResponseHead where
  version : Str
  status_code : Nat
  reason : Str
  headers : List (Str × Str)
  content : List Nat
deriving DecidableEq, Repr

/-- `usize::MAX` on a 64-bit target. -/
def usizeMax : Nat := 18446744073709551615

/-- The source's Transfer-Encoding test: header present and its lowercased
value contains `"chunked"`. -/
def te_is_chunked (headers : List (Str × Str)) : Bool :=
  match headerGet headers "transfer-encoding".toList with
  | some te => containsSeq "chunked".toList (to_lowercase te)
  | none => false

/-- `Http1Client::calculate_expected_response_body_size`, byte-exact control
flow: HEAD / status < 200 / 204 / 304 / CONNECT+200 have no body; then
chunked (`usize::MAX` sentinel); then Content-Length (parse failure is a
protocol error); then HTTP/1.0 read-until-EOF (`usize::MAX - 1` sentinel);
otherwise no body.  `str::parse::<usize>` on a 64-bit target is
`parse_u64`. -/
def calculate_expected_response_body_size (request : H1RequestHead)
    (response : H1ResponseHead) : Except Str Nat :=
  if to_uppercase request.method = "HEAD".toList then .ok 0
  else if response.status_code < 200 ∨ response.status_code = 204 ∨
      response.status_code = 304 then .ok 0
  else if to_uppercase request.method = "CONNECT".toList ∧
      response.status_code = 200 then .ok 0
  else if te_is_chunked response.headers then .ok usizeMax
  else
    match headerGet response.headers "content-length".toList with
    | some cl =>
      match parse_u64 cl with
      | some n => .ok n
      | none => .error "Invalid Content-Length header".toList
    | none =>
      if response.version = "HTTP/1.0".toList then .ok (usizeMax - 1) else .ok 0

/-- Abstract body-size outcome vocabulary of the specification. -/
inductive BodySize where
  | noBody
  | chunked
  | exact (n : Nat)
  | untilEof
  | invalidLength
deriving DecidableEq, Repr

/-- How the source encodes each abstract outcome as a `usize` result. -/
def encodeBodySize : BodySize → Except Str Nat
  | .noBody => .ok 0
  | .chunked => .ok usizeMax
  | .exact n => .ok n
  | .untilEof => .ok (usizeMax - 1)
  | .invalidLength => .error "Invalid Content-Length header".toList

/-- The body-size rules exactly as the claim states them: `1xx` read as
status 100–199, and CONNECT answered with any `2xx`. -/
def claimed_body_size (request : H1RequestHead) (response : H1ResponseHead) :
    BodySize :=
  if to_uppercase request.method = "HEAD".toList then .noBody
  else if (100 ≤ response.status_code ∧ response.status_code < 200) ∨
      response.status_code = 204 ∨ response.status_code = 304 then .noBody
  else if to_uppercase request.method = "CONNECT".toList ∧
      200 ≤ response.status_code ∧ response.status_code < 300 then .noBody
  else if te_is_chunked response.headers then .chunked
  else
    match headerGet response.headers "content-length".toList with
    | some cl =>
      match parse_u64 cl with
      | some n => .exact n
      | none => .invalidLength
    | none =>
      if response.version = "HTTP/1.0".toList then .untilEof else .noBody

/-- The body-size rules as the code forces them to be amended: every status
below 200 (not only 100–199) means no body, and only CONNECT answered with
exactly 200 means no body. -/
def amended_body_size (request : H1RequestHead) (response : H1ResponseHead) :
    BodySize :=
  if to_uppercase request.method = "HEAD".toList then .noBody
  else if response.status_code < 200 ∨ response.status_code = 204 ∨
      response.status_code = 304 then .noBody
  else if to_uppercase request.method = "CONNECT".toList ∧
      response.status_code = 200 then .noBody
  else if te_is_chunked response.headers then .chunked
  else
    match headerGet response.headers "content-length".toList with
    | some cl =>
      match parse_u64 cl with
      | some n => .exact n
      | none => .invalidLength
    | none =>
      if response.version = "HTTP/1.0".toList then .untilEof else .noBody

def c6ReqConnect : H1RequestHead :=
  { method := "CONNECT".toList, url := "api.test:443".toList,
    version := "HTTP/1.1".toList, headers := [], content := [] }

def c6Resp202 : H1ResponseHead :=
  { version := "HTTP/1.1".toList, status_code := 202, reason := "Accepted".toList,
    headers := [("content-length".toList, "5".toList)], content := [] }

def c6ReqGet : H1RequestHead :=
  { method := "GET".toList, url := "/".toList,
    version := "HTTP/1.1".toList, headers := [], content := [] }

def c6Resp99 : H1ResponseHead :=
  { version := "HTTP/1.1".toList, status_code := 99, reason := [],
    headers := [("content-length".toList, "7".toList)], content := [] }

/-- Equality of `Except` results is decidable componentwise. -/
instance {e a : Type} [DecidableEq e] [DecidableEq a] : DecidableEq (Except e a) :=
  fun x y =>
    match x, y with
    | .error e1, .error e2 =>
      if h : e1 = e2 then isTrue (by rw [h]) else
        isFalse (fun hc => h (by injection hc))
    | .ok x1, .ok y1 =>
      if h : x1 = y1 then isTrue (by rw [h]) else
        isFalse (fun hc => h (by injection hc))
    | .error _, .ok _ => isFalse (fun hc => Except.noConfusion hc)
    | .ok _, .error _ => isFalse (fun hc => Except.noConfusion hc)

/-- C6 (counterexample): the claim's rules disagree with the code on
CONNECT answered 202 with a Content-Length (code reads 5 bytes, claim says
no body) and on status 99 with a Content-Length (code says no body, claim
reads 7 bytes). -/
theorem body_size_claim_cex :
    ¬ (calculate_expected_response_body_size c6ReqConnect c6Resp202 =
        encodeBodySize (claimed_body_size c6ReqConnect c6Resp202)) ∧
    ¬ (calculate_expected_response_body_size c6ReqGet c6Resp99 =
        encodeBodySize (claimed_body_size c6ReqGet c6Resp99)) := by
  decide

/-- C6 (amended): the code's expected response body size follows exactly the
amended rules in order — HEAD, status < 200 or 204 or 304, or CONNECT
answered 200 mean no body; otherwise chunked Transfer-Encoding means chunked
framing; otherwise Content-Length N means exactly N bytes (a malformed value
is a protocol error); otherwise HTTP/1.0 means read-until-EOF; otherwise no
body. -/
theorem body_size_spec (request : H1RequestHead) (response : H1ResponseHead) :
    calculate_expected_response_body_size request response =
      encodeBodySize (amended_body_size request response) := by
  unfold calculate_expected_response_body_size amended_body_size
  by_cases h1 : to_uppercase request.method = "HEAD".toList
  · rw [if_pos h1, if_pos h1]
    rfl
  · rw [if_neg h1, if_neg h1]
    by_cases h2 : response.status_code < 200 ∨ response.status_code = 204 ∨
        response.status_code = 304
    · rw [if_pos h2, if_pos h2]
      rfl
    · rw [if_neg h2, if_neg h2]
      by_cases h3 : to_uppercase request.method = "CONNECT".toList ∧
          response.status_code = 200
      · rw [if_pos h3, if_pos h3]
        rfl
      · rw [if_neg h3, if_neg h3]
        by_cases h4 : te_is_chunked response.headers = true
        · rw [if_pos h4, if_pos h4]
          rfl
        · rw [if_neg h4, if_neg h4]
          cases hcl : headerGet response.headers "content-length".toList with
          | some cl =>
            dsimp only
            cases hp : parse_u64 cl with
            | some n => rfl
            | none => rfl
          | none =>
            by_cases h5 : response.version = "HTTP/1.0".toList
            · rw [if_pos h5, if_pos h5]
              rfl
            · rw [if_neg h5, if_neg h5]
              rfl

/-! ## Flow store (src/proxy/server.rs) -/

/-- `HashMap::contains_key`, on the association-list model of a map with
unique keys. -/
def mapContains {α : Type} (m : List (Str × α)) (k : Str) : Bool :=
  m.any (fun p => p.1 == k)

/-- `HashMap::get`. -/
def mapGet {α : Type} (m : List (Str × α)) (k : Str) : Option α :=
  (m.find? (fun p => p.1 == k)).map (·.2)

/-- `HashMap::insert`: replace the binding if the key is present, otherwise
append. -/
def mapInsert {α : Type} : List (Str × α) → Str → α → List (Str × α)
  | [], k, v => [(k, v)]
  | (k0, v0) :: rest, k, v =>
    if k0 = k then (k, v) :: rest else (k0, v0) :: mapInsert rest k v

/-- `ProxyServer::update_flow`: replace the whole snapshot under the flow's
id iff a flow with that id is stored; report success. -/
def update_flow (flows : List (Str × HTTPFlow)) (f : HTTPFlow) :
    List (Str × HTTPFlow) × Bool :=
  let id := f.flow.id
  if mapContains flows id then (mapInsert flows id f, true) else (flows, false)

theorem mapGet_cons_pos {α : Type} (q : Str × α) (rest : List (Str × α)) (k : Str)
    (h : (q.1 == k) = true) : mapGet (q :: rest) k = some q.2 := by
  rw [mapGet, List.find?_cons_of_pos (p := fun r => r.1 == k) rest h]
  rfl

theorem mapGet_cons_neg {α : Type} (q : Str × α) (rest : List (Str × α)) (k : Str)
    (h : (q.1 == k) = false) : mapGet (q :: rest) k = mapGet rest k := by
  rw [mapGet, List.find?_cons_of_neg (p := fun r => r.1 == k) rest (by simp [h])]
  rfl

theorem mapContains_iff_get {α : Type} (m : List (Str × α)) (k : Str) :
    mapContains m k = true ↔ (mapGet m k).isSome = true := by
  induction m with
  | nil => simp [mapContains, mapGet]
  | cons p rest ih =>
    cases hb : (p.1 == k) with
    | true =>
      have h1 : mapContains (p :: rest) k = true := by
        simp [mapContains, List.any_cons, hb]
      rw [h1, mapGet_cons_pos p rest k hb]
      simp
    | false =>
      have h1 : mapContains (p :: rest) k = mapContains rest k := by
        simp [mapContains, List.any_cons, hb]
      rw [h1, mapGet_cons_neg p rest k hb]
      exact ih

theorem mapGet_insert_self {α : Type} (m : List (Str × α)) (k : Str) (v : α) :
    mapGet (mapInsert m k v) k = some v := by
  induction m with
  | nil =>
    rw [show mapInsert ([] : List (Str × α)) k v = [(k, v)] from rfl]
    exact mapGet_cons_pos (k, v) [] k (by simp)
  | cons p rest ih =>
    obtain ⟨k0, v0⟩ := p
    by_cases h : k0 = k
    · rw [show mapInsert ((k0, v0) :: rest) k v = (k, v) :: rest from by
        simp [mapInsert, h]]
      exact mapGet_cons_pos (k, v) rest k (by simp)
    · rw [show mapInsert ((k0, v0) :: rest) k v = (k0, v0) :: mapInsert rest k v from by
        simp [mapInsert, h]]
      rw [mapGet_cons_neg (k0, v0) (mapInsert rest k v) k (by simp [h])]
      exact ih

theorem mapGet_insert_other {α : Type} (m : List (Str × α)) (k k2 : Str) (v : α)
    (hne : k2 ≠ k) : mapGet (mapInsert m k v) k2 = mapGet m k2 := by
  have hkk2 : ((k, v).1 == k2) = false := by
    simp only [beq_eq_false_iff_ne, ne_eq]
    exact fun hc => hne hc.symm
  induction m with
  | nil =>
    rw [show mapInsert ([] : List (Str × α)) k v = [(k, v)] from rfl]
    rw [mapGet_cons_neg (k, v) [] k2 hkk2]
  | cons p rest ih =>
    obtain ⟨k0, v0⟩ := p
    by_cases h : k0 = k
    · rw [show mapInsert ((k0, v0) :: rest) k v = (k, v) :: rest from by
        simp [mapInsert, h]]
      rw [mapGet_cons_neg (k, v) rest k2 hkk2]
      rw [mapGet_cons_neg (k0, v0) rest k2 (by simpa [h] using hkk2)]
    · rw [show mapInsert ((k0, v0) :: rest) k v = (k0, v0) :: mapInsert rest k v from by
        simp [mapInsert, h]]
      by_cases h2 : k0 = k2
      · rw [mapGet_cons_pos (k0, v0) (mapInsert rest k v) k2 (by simp [h2])]
        rw [mapGet_cons_pos (k0, v0) rest k2 (by simp [h2])]
      · rw [mapGet_cons_neg (k0, v0) (mapInsert rest k v) k2 (by simp [h2])]
        rw [mapGet_cons_neg (k0, v0) rest k2 (by simp [h2])]
        exact ih

/-- C7: `update_flow(f)` succeeds iff a flow with `f`'s id is stored; on
success the whole snapshot under that id is replaced by `f` and every other
id keeps its binding; on failure the store is unchanged. -/
theorem update_flow_spec (flows : List (Str × HTTPFlow)) (f : HTTPFlow) :
    ((update_flow flows f).2 = true ↔ (mapGet flows f.flow.id).isSome = true) ∧
    ((update_flow flows f).2 = true →
      mapGet (update_flow flows f).1 f.flow.id = some f ∧
      ∀ k, k ≠ f.flow.id → mapGet (update_flow flows f).1 k = mapGet flows k) ∧
    ((update_flow flows f).2 = false → (update_flow flows f).1 = flows) := by
  by_cases h : mapContains flows f.flow.id = true
  · have hufs : update_flow flows f = (mapInsert flows f.flow.id f, true) := by
      simp only [update_flow, if_pos h]
    refine ⟨?_, ?_, ?_⟩
    · rw [hufs]
      exact ⟨fun _ => (mapContains_iff_get flows f.flow.id).mp h, fun _ => rfl⟩
    · intro _
      rw [hufs]
      exact ⟨mapGet_insert_self flows f.flow.id f,
        fun k hk => mapGet_insert_other flows f.flow.id k f hk⟩
    · intro hfail
      rw [hufs] at hfail
      exact Bool.noConfusion hfail
  · have hufn : update_flow flows f = (flows, false) := by
      simp only [update_flow, if_neg h]
    refine ⟨?_, ?_, ?_⟩
    · rw [hufn]
      constructor
      · intro hc
        exact Bool.noConfusion hc
      · intro hg
        exact absurd ((mapContains_iff_get flows f.flow.id).mpr hg) h
    · intro hsucc
      rw [hufn] at hsucc
      exact Bool.noConfusion hsucc
    · intro _
      rw [hufn]

/-- C7 (witness): a two-flow store; updating a present id replaces only that
snapshot, updating an absent id fails and leaves the store unchanged. -/
theorem update_flow_spec_witness :
    ((update_flow [("flow-1".toList, c3_flow)] (c3_flow.with_response c2Resp)).2 = true ↔
      (mapGet [("flow-1".toList, c3_flow)]
        (c3_flow.with_response c2Resp).flow.id).isSome = true) ∧
    mapGet (update_flow [("flow-1".toList, c3_flow)]
      (c3_flow.with_response c2Resp)).1 "flow-1".toList =
      some (c3_flow.with_response c2Resp) := by
  have h := update_flow_spec [("flow-1".toList, c3_flow)] (c3_flow.with_response c2Resp)
  exact ⟨h.1, (h.2.1 (by decide)).1⟩

/-! ## Certificate authority (src/certs.rs) -/

/-- The observable content of a minted leaf certificate: its DNS SAN list
(in insertion order) and the fresh key/serial material drawn when it was
generated.  Distinct draws model the random 2048-bit key and random serial. -/
structure HostCert where
  san : List Str
  serial : Nat
deriving DecidableEq, Repr

/-- The SAN list `generate_host_cert` builds: the hostname itself, plus the
wildcard `*.hostname` unless the hostname is already a wildcard. -/
def sanFor (hostname : Str) : List Str :=
  hostname :: (if listStartsWith "*.".toList hostname then []
    else [("*.".toList ++ hostname)])

/-- `CertificateAuthority::generate_host_cert`: a fresh key pair and serial
are drawn (passed explicitly as `fresh`); the SAN is computed from the
hostname. -/
def generate_host_cert (fresh : Nat) (hostname : Str) : HostCert :=
  { san := sanFor hostname, serial := fresh }

/-- The mutable state of `CertificateAuthority` relevant to leaf minting:
the host-keyed certificate cache and the supply of fresh random material. -/
structure CertificateAuthority where
  cert_cache : List (Str × HostCert)
  fresh_serial : Nat
deriving DecidableEq, Repr

/-- `CertificateAuthority::get_cert_for_host`: return the cached leaf for
the exact hostname string if present; otherwise generate, cache and return
a fresh one. -/
def get_cert_for_host (ca : CertificateAuthority) (hostname : Str) :
    HostCert × CertificateAuthority :=
  match mapGet ca.cert_cache hostname with
  | some cert => (cert, ca)
  | none =>
    let cert := generate_host_cert ca.fresh_serial hostname
    (cert, { cert_cache := mapInsert ca.cert_cache hostname cert,
             fresh_serial := ca.fresh_serial + 1 })

/-- Invariant: every cached leaf was produced by `generate_host_cert` for
its key, so its SAN is determined by its hostname. -/
def cacheWF (ca : CertificateAuthority) : Prop :=
  ∀ p ∈ ca.cert_cache, p.2.san = sanFor p.1

theorem mapGet_mem {α : Type} {m : List (Str × α)} {k : Str} {v : α}
    (h : mapGet m k = some v) : (k, v) ∈ m := by
  induction m with
  | nil => simp [mapGet] at h
  | cons q rest ih =>
    cases hb : (q.1 == k) with
    | true =>
      rw [mapGet_cons_pos q rest k hb] at h
      have hk : q.1 = k := by
        have := hb
        simpa using this
      have hv : q.2 = v := Option.some.inj h
      have : q = (k, v) := by
        obtain ⟨q1, q2⟩ := q
        simp only at hk hv
        rw [hk, hv]
      rw [← this]
      exact List.mem_cons_self q rest
    | false =>
      rw [mapGet_cons_neg q rest k hb] at h
      exact List.mem_cons_of_mem q (ih h)

theorem mapInsert_mem {α : Type} {m : List (Str × α)} {k : Str} {v : α} {p : Str × α}
    (h : p ∈ mapInsert m k v) : p = (k, v) ∨ p ∈ m := by
  induction m with
  | nil =>
    rw [show mapInsert ([] : List (Str × α)) k v = [(k, v)] from rfl] at h
    simp at h
    exact Or.inl h
  | cons q rest ih =>
    obtain ⟨k0, v0⟩ := q
    by_cases hk : k0 = k
    · rw [show mapInsert ((k0, v0) :: rest) k v = (k, v) :: rest from by
        simp [mapInsert, hk]] at h
      rcases List.mem_cons.mp h with h1 | h1
      · exact Or.inl h1
      · exact Or.inr (List.mem_cons_of_mem _ h1)
    · rw [show mapInsert ((k0, v0) :: rest) k v = (k0, v0) :: mapInsert rest k v from by
        simp [mapInsert, hk]] at h
      rcases List.mem_cons.mp h with h1 | h1
      · exact Or.inr (h1 ▸ List.mem_cons_self _ _)
      · rcases ih h1 with h2 | h2
        · exact Or.inl h2
        · exact Or.inr (List.mem_cons_of_mem _ h2)

/-- On a well-formed cache, the returned leaf's SAN is always the one
determined by the requested hostname. -/
theorem get_cert_san (ca : CertificateAuthority) (hostname : Str)
    (hwf : cacheWF ca) : (get_cert_for_host ca hostname).1.san = sanFor hostname := by
  unfold get_cert_for_host
  cases hg : mapGet ca.cert_cache hostname with
  | some cert =>
    have hmem := mapGet_mem hg
    exact hwf (hostname, cert) hmem
  | none => rfl

/-- `get_cert_for_host` preserves cache well-formedness. -/
theorem get_cert_wf (ca : CertificateAuthority) (hostname : Str)
    (hwf : cacheWF ca) : cacheWF (get_cert_for_host ca hostname).2 := by
  unfold get_cert_for_host
  cases hg : mapGet ca.cert_cache hostname with
  | some cert => exact hwf
  | none =>
    intro p hp
    rcases mapInsert_mem hp with h1 | h1
    · rw [h1]
      rfl
    · exact hwf p h1

/-- The first call caches the leaf it returns, so an immediate second call
for the same hostname returns the byte-identical leaf. -/
theorem get_cert_stable (ca : CertificateAuthority) (hostname : Str) :
    (get_cert_for_host (get_cert_for_host ca hostname).2 hostname).1 =
      (get_cert_for_host ca hostname).1 := by
  unfold get_cert_for_host
  cases hg : mapGet ca.cert_cache hostname with
  | some cert => simp only [hg]
  | none =>
    simp only [hg]
    rw [mapGet_insert_self]

theorem sanFor_inj {h1 h2 : Str} (he : sanFor h1 = sanFor h2) : h1 = h2 := by
  unfold sanFor at he
  exact List.head_eq_of_cons_eq he

/-- C8: on well-formed certificate-authority states, (a) two successive
calls for the same host return the same leaf (first call populates the
cache keyed by the exact hostname, the second hits it), (b) the returned
leaf's SAN is the hostname plus its wildcard variant unless the hostname is
itself a wildcard, and (c) leaves returned for distinct hostnames differ in
their SAN lists. -/
theorem get_cert_for_host_spec (ca ca2 : CertificateAuthority)
    (h1 h2 : Str) (hwf : cacheWF ca) (hwf2 : cacheWF ca2) (hne : h1 ≠ h2) :
    (get_cert_for_host (get_cert_for_host ca h1).2 h1).1 =
      (get_cert_for_host ca h1).1 ∧
    (get_cert_for_host ca h1).1.san = sanFor h1 ∧
    cacheWF (get_cert_for_host ca h1).2 ∧
    (get_cert_for_host ca h1).1.san ≠ (get_cert_for_host ca2 h2).1.san := by
  refine ⟨get_cert_stable ca h1, get_cert_san ca h1 hwf, get_cert_wf ca h1 hwf, ?_⟩
  rw [get_cert_san ca h1 hwf, get_cert_san ca2 h2 hwf2]
  exact fun hc => hne (sanFor_inj hc)

/-- C8 (witness): two fresh authorities and the hosts `api.test`, `b.test`. -/
theorem get_cert_for_host_spec_witness :
    (cacheWF { cert_cache := [], fresh_serial := 0 } ∧
      "api.test".toList ≠ "b.test".toList) ∧
    (get_cert_for_host
        (get_cert_for_host { cert_cache := [], fresh_serial := 0 } "api.test".toList).2
        "api.test".toList).1 =
      (get_cert_for_host { cert_cache := [], fresh_serial := 0 } "api.test".toList).1 ∧
    (get_cert_for_host { cert_cache := [], fresh_serial := 0 } "api.test".toList).1.san =
      sanFor "api.test".toList ∧
    (get_cert_for_host { cert_cache := [], fresh_serial := 0 } "api.test".toList).1.san ≠
      (get_cert_for_host { cert_cache := [], fresh_serial := 0 } "b.test".toList).1.san := by
  have hwf : cacheWF { cert_cache := [], fresh_serial := 0 } := by
    intro p hp
    simp at hp
  have h := get_cert_for_host_spec { cert_cache := [], fresh_serial := 0 }
    { cert_cache := [], fresh_serial := 0 } "api.test".toList "b.test".toList
    hwf hwf (by decide)
  exact ⟨⟨hwf, by decide⟩, h.1, h.2.1, h.2.2.2⟩

/-- Root key-pair material.  `generate_ca_cert` draws a fresh random RSA key
and serial; the draw is passed explicitly as the `fresh` argument. -/
structure CaKeyPair where
  cert_pem : List Nat
  key_der : List Nat
deriving DecidableEq, Repr

/-- The configured certificate directory, as a path-keyed file map. -/
abbrev FileSystem := List (Str × List Nat)

/-- `CertificateAuthority::generate_ca_cert`: returns the freshly drawn
root material. -/
def generate_ca_cert (fresh : CaKeyPair) : CaKeyPair := fresh

/-- `CertificateAuthority::load_ca_cert`, exactly as the source has it: both
path arguments are ignored and a new root is generated (`"For simplicity,
we'll just regenerate if loading fails"`).  The persisted file contents a
real loader would read are passed in so the theorem can state that they are
ignored. -/
def load_ca_cert (fresh : CaKeyPair) (_cert_file _key_file : List Nat) : CaKeyPair :=
  generate_ca_cert fresh

/-- `CertificateAuthority::save_ca_cert`: writes the certificate PEM to the
certificate path; the private key is not written (`_key_path` is unused in
the source, which says a real implementation would save it). -/
def save_ca_cert (fs : FileSystem) (cert : List Nat) (_key : List Nat)
    (cert_path _key_path : Str) : FileSystem :=
  mapInsert fs cert_path cert

/-- `CertificateAuthority::new`: if both artifact files exist, "load" them
(which regenerates); otherwise generate and save. -/
def certificate_authority_new (fs : FileSystem) (fresh : CaKeyPair)
    (cert_path key_path : Str) : CaKeyPair × FileSystem :=
  if (mapGet fs cert_path).isSome ∧ (mapGet fs key_path).isSome then
    (load_ca_cert fresh ((mapGet fs cert_path).getD []) ((mapGet fs key_path).getD []),
      fs)
  else
    let pair := generate_ca_cert fresh
    (pair, save_ca_cert fs pair.cert_pem pair.key_der cert_path key_path)

def c4_cert_path : Str := "mitmproxy-ca-cert.pem".toList

def c4_key_path : Str := "mitmproxy-ca-cert.p12".toList

/-- A directory already holding both certificate-authority artifacts. -/
def c4_fs : FileSystem := [(c4_cert_path, [1, 2, 3]), (c4_key_path, [4, 5, 6])]

/-- The same directory with different persisted contents. -/
def c4_fs2 : FileSystem := [(c4_cert_path, [7, 7, 7]), (c4_key_path, [8, 8, 8])]

def c4_fresh : CaKeyPair := { cert_pem := [9, 9], key_der := [10] }

/-- C4 (divergence evaluation): with both artifact files already on disk,
`CertificateAuthority::new` returns the freshly generated root rather than
the persisted one; the result is independent of the persisted file contents;
and `save_ca_cert` never writes the key file, so the key is not persisted by
the first construction either. -/
theorem ca_new_ignores_persisted_state :
    (certificate_authority_new c4_fs c4_fresh c4_cert_path c4_key_path).1 = c4_fresh ∧
    (certificate_authority_new c4_fs c4_fresh c4_cert_path c4_key_path).1 =
      (certificate_authority_new c4_fs2 c4_fresh c4_cert_path c4_key_path).1 ∧
    (certificate_authority_new c4_fs c4_fresh c4_cert_path c4_key_path).1.cert_pem ≠
      [1, 2, 3] ∧
    mapGet (save_ca_cert [] [9, 9] [10] c4_cert_path c4_key_path) c4_key_path = none := by
  decide

/-! ## Filter engine (src/filter.rs) -/

/-- A compiled `regex::Regex`.  The regex crate is external to the
repository; a compiled regex is determined by its pattern, and its matching
behaviour is abstracted as a parameter wherever `is_match` is called. -/
structure RustRegex where
  pattern : Str
deriving DecidableEq, Repr

/-- Rust `char::is_whitespace` (the Unicode White_Space property), used by
`str::trim`. -/
def is_rust_whitespace (c : Char) : Bool :=
  c = ' ' || c = '\t' || c = '\n' || c = '\x0b' || c = '\x0c' || c = '\r' ||
  c.toNat = 133 || c.toNat = 160 || c.toNat = 5760 ||
  (8192 ≤ c.toNat && c.toNat ≤ 8202) || c.toNat = 8232 || c.toNat = 8233 ||
  c.toNat = 8239 || c.toNat = 8287 || c.toNat = 12288

/-- Rust `str::trim`. -/
def rustTrim (s : Str) : Str :=
  ((s.dropWhile is_rust_whitespace).reverse.dropWhile is_rust_whitespace).reverse

/-- Rust `str::ends_with`. -/
def listEndsWith (suffix s : Str) : Bool :=
  listStartsWith suffix.reverse s.reverse

/-- Rust `str::parse::<u16>()`. -/
def parse_u16 (s : Str) : Option Nat :=
  match parse_u64 s with
  | some n => if n < 65536 then some n else none
  | none => none

/-- The `find_operator` scan of src/filter.rs: first position at
parenthesis depth zero where the operator starts; on `(` and `)` the depth
is adjusted and no operator test happens. -/
def find_operator_aux (op : Str) : Int → Nat → Str → Option Nat
  | _, _, [] => none
  | depth, i, c :: rest =>
    if c = '(' then find_operator_aux op (depth + 1) (i + 1) rest
    else if c = ')' then find_operator_aux op (depth - 1) (i + 1) rest
    else if depth = 0 then
      if listStartsWith op (c :: rest) then some i
      else find_operator_aux op depth (i + 1) rest
    else find_operator_aux op depth (i + 1) rest

def find_operator (expr : Str) (op : Str) : Option Nat :=
  find_operator_aux op 0 0 expr

/-- The compiled filter tree (src/filter.rs `CompiledFilter`). -/
inductive CompiledFilter where
  | Always
  | Never
  | Method (m : Str)
  | Host (re : RustRegex)
  | Path (re : RustRegex)
  | Body (re : RustRegex)
  | Header (name : Str) (pattern : RustRegex)
  | StatusCode (code : Nat)
  | ContentType (re : RustRegex)
  | Url (re : RustRegex)
  | Error
  | Marked
  | Http
  | Tcp
  | Udp
  | WebSocket
  | And (l r : CompiledFilter)
  | Or (l r : CompiledFilter)
  | Not (inner : CompiledFilter)
deriving DecidableEq, Repr

/-- The keyword table and URL-regex default at the end of `Filter::compile`
(also reached by fall-through when a `~h` leaf has no colon or a `~c` value
does not parse).  Regex construction is abstracted as `reNew`; the
`Error::filter` message formatting is elided, the success/failure structure
is preserved. -/
def keywordOrUrl (reNew : Str → Except Str RustRegex) (expr : Str) :
    Except Str CompiledFilter :=
  if expr = "~e".toList then .ok .Error
  else if expr = "~marked".toList then .ok .Marked
  else if expr = "~http".toList then .ok .Http
  else if expr = "~tcp".toList then .ok .Tcp
  else if expr = "~udp".toList then .ok .Udp
  else if expr = "~websocket".toList then .ok .WebSocket
  else (reNew expr).map CompiledFilter.Url

/-- The leaf cases of `Filter::compile` (`~m`, `~d`, `~u`, `~b`, `~h`,
`~c`, `~t`, keywords, bare URL regex).  In the source, a `~h` leaf without a
colon and a `~c` leaf with an unparsable code fall through past the later
`starts_with` tests (which cannot match) to the keyword/URL default. -/
def leafCompile (reNew : Str → Except Str RustRegex) (expr : Str) :
    Except Str CompiledFilter :=
  if listStartsWith "~m ".toList expr then
    .ok (.Method (to_uppercase (rustTrim (expr.drop 3))))
  else if listStartsWith "~d ".toList expr then
    (reNew (rustTrim (expr.drop 3))).map CompiledFilter.Host
  else if listStartsWith "~u ".toList expr then
    (reNew (rustTrim (expr.drop 3))).map CompiledFilter.Url
  else if listStartsWith "~b ".toList expr then
    (reNew (rustTrim (expr.drop 3))).map CompiledFilter.Body
  else if listStartsWith "~h ".toList expr then
    let rest := rustTrim (expr.drop 3)
    match findChar ':' rest with
    | some colon_pos =>
      (reNew (rustTrim (rest.drop (colon_pos + 1)))).map
        (CompiledFilter.Header (to_lowercase (rustTrim (rest.take colon_pos))))
    | none => keywordOrUrl reNew expr
  else if listStartsWith "~c ".toList expr then
    match parse_u16 (rustTrim (expr.drop 3)) with
    | some code => .ok (.StatusCode code)
    | none => keywordOrUrl reNew expr
  else if listStartsWith "~t ".toList expr then
    (reNew (rustTrim (expr.drop 3))).map CompiledFilter.ContentType
  else keywordOrUrl reNew expr

/-- `Filter::compile`, with explicit fuel.  Every recursive call in the
source strictly shortens the expression (an operator side, the body of a
`!`, or the interior of a parenthesised group), so recursion depth is
bounded by the expression length and fuel `expr.length + 1` always
suffices. -/
def compileF (reNew : Str → Except Str RustRegex) : Nat → Str → Except Str CompiledFilter
  | 0, _ => .error "recursion limit".toList
  | fuel + 1, expr0 =>
    let expr := rustTrim expr0
    if expr = [] then .ok .Always
    else
      match find_operator expr "|".toList with
      | some or_pos =>
        (compileF reNew fuel (expr.take or_pos)).bind (fun left =>
          (compileF reNew fuel (expr.drop (or_pos + 1))).map
            (fun right => .Or left right))
      | none =>
        match find_operator expr "&".toList with
        | some and_pos =>
          (compileF reNew fuel (expr.take and_pos)).bind (fun left =>
            (compileF reNew fuel (expr.drop (and_pos + 1))).map
              (fun right => .And left right))
        | none =>
          if listStartsWith "!".toList expr then
            (compileF reNew fuel (expr.drop 1)).map (fun inner => .Not inner)
          else if listStartsWith "(".toList expr && listEndsWith ")".toList expr then
            compileF reNew fuel ((expr.drop 1).take (expr.length - 2))
          else leafCompile reNew expr

def compile (reNew : Str → Except Str RustRegex) (expr : Str) :
    Except Str CompiledFilter :=
  compileF reNew (expr.length + 1) expr

/-- `CompiledFilter::matches` over a flow snapshot; regex matching is
abstracted as `reMatch`. -/
def CompiledFilter.matches (f : CompiledFilter) (reMatch : RustRegex → Str → Bool)
    (flow : HTTPFlow) : Bool :=
  match f with
  | .Always => true
  | .Never => false
  | .Method m => to_uppercase flow.request.method == m
  | .Host re => reMatch re flow.request.host
  | .Path re => reMatch re flow.request.path
  | .Body re =>
    let reqHit : Bool :=
      match flow.request.content with
      | some content =>
        match utf8Decode content with
        | some text => reMatch re text
        | none => false
      | none => false
    if reqHit then true
    else
      match flow.response with
      | some resp =>
        match resp.content with
        | some content =>
          match utf8Decode content with
          | some text => reMatch re text
          | none => false
        | none => false
      | none => false
  | .Header name pattern =>
    flow.request.headers.any
      (fun p => to_lowercase p.1 == name && reMatch pattern p.2) ||
    (match flow.response with
     | some resp =>
       resp.headers.any (fun p => to_lowercase p.1 == name && reMatch pattern p.2)
     | none => false)
  | .StatusCode code =>
    match flow.response with
    | some resp => resp.status_code == code
    | none => false
  | .ContentType re =>
    flow.request.headers.any
      (fun p => to_lowercase p.1 == "content-type".toList && reMatch re p.2) ||
    (match flow.response with
     | some resp =>
       resp.headers.any
         (fun p => to_lowercase p.1 == "content-type".toList && reMatch re p.2)
     | none => false)
  | .Url re => reMatch re flow.request.url
  | .Error => flow.flow.error.isSome
  | .Marked => !flow.flow.marked.isEmpty
  | .Http => match flow.flow.flow_type with | .http => true | _ => false
  | .Tcp => match flow.flow.flow_type with | .tcp => true | _ => false
  | .Udp => match flow.flow.flow_type with | .udp => true | _ => false
  | .WebSocket => flow.websocket.isSome
  | .And l r => l.matches reMatch flow && r.matches reMatch flow
  | .Or l r => l.matches reMatch flow || r.matches reMatch flow
  | .Not inner => !(inner.matches reMatch flow)

theorem rustTrim_all_whitespace {expr : Str}
    (h : expr.all is_rust_whitespace = true) : rustTrim expr = [] := by
  have hall : ∀ c ∈ expr, is_rust_whitespace c = true := List.all_eq_true.mp h
  unfold rustTrim
  rw [List.dropWhile_eq_nil_iff.mpr (fun c hc => hall c hc)]
  rfl

/-- C10: compiling an empty or all-whitespace filter expression succeeds
with the `Always` filter, and `Always` matches every flow under every regex
semantics. -/
theorem compile_blank_always (reNew : Str → Except Str RustRegex) (expr : Str)
    (h : expr.all is_rust_whitespace = true) :
    compile reNew expr = .ok .Always ∧
    ∀ (reMatch : RustRegex → Str → Bool) (flow : HTTPFlow),
      CompiledFilter.Always.matches reMatch flow = true := by
  refine ⟨?_, fun reMatch flow => rfl⟩
  have htrim : rustTrim expr = [] := rustTrim_all_whitespace h
  simp only [compile, compileF, htrim]
  rfl

/-- C10 (witness): a whitespace-only expression with a concrete regex
constructor. -/
theorem compile_blank_always_witness :
    (" \t ".toList.all is_rust_whitespace = true) ∧
    compile (fun p => .ok { pattern := p }) " \t ".toList = .ok .Always :=
  ⟨by decide, (compile_blank_always (fun p => .ok { pattern := p }) " \t ".toList
    (by decide)).1⟩
